import Mathlib

/-!
Shallow embedding of the word-frequency indexer in src/file_indexer.py
and a verification of its specification.

The embedding follows the Python source:
  - the tokenizer (WORD_RE together with the generator _tokenize_text)
    becomes a structurally recursive splitter over character lists;
  - the Histogram class becomes a structure holding an insertion-ordered
    association list (modelling the Python dict) plus the running total;
  - str.lower becomes a character-wise map with the ASCII case transform
    (Char.toLower is exactly that transform);
  - Python string comparison becomes lexicographic comparison of the
    code-point sequences;
  - sorted(..., key=lambda x: (x[1], x[0]), reverse=True) becomes a sort
    by the corresponding total order; since the key is injective on the
    items of a dict (distinct words) and fully equal items are
    interchangeable, any sort by this order returns the same list as the
    stable sort used by Python;
  - multiprocessing.Pool.map becomes an order-preserving map, which is
    its documented semantics (results come back in input order);
  - raised exceptions become Except values, and list indexing follows
    the Python rules, including negative indices;
  - the dynamic type checks in the merge operators are modelled with a
    small universe of Python values.
-/

/-- Character class of the regular expression WORD_RE = [a-zA-Z0-9]. -/
def isWordChar (c : Char) : Bool :=
  (65 ≤ c.toNat && c.toNat ≤ 90) || (97 ≤ c.toNat && c.toNat ≤ 122) ||
    (48 ≤ c.toNat && c.toNat ≤ 57)

/-- Fuel-indexed worker for the tokenizer: emits the maximal runs of
word characters, skipping every other character, exactly as
WORD_RE.finditer does.  The fuel is only a termination device; it is
always called with at least the length of the list. -/
def tokenizeAux : Nat → List Char → List (List Char)
  | 0, _ => []
  | _, [] => []
  | fuel + 1, c :: rest =>
    if isWordChar c then
      (c :: rest.takeWhile isWordChar) :: tokenizeAux fuel (rest.dropWhile isWordChar)
    else
      tokenizeAux fuel rest

/-- Maximal alphanumeric runs of a character list. -/
def tokenizeChars (l : List Char) : List (List Char) := tokenizeAux l.length l

/-- Embedding of _tokenize_text: the words of a text, in order.  The
generator yields match.group(0) for every match of WORD_RE, that is,
every maximal alphanumeric run. -/
def tokenize_text (text : String) : List String :=
  (tokenizeChars text.data).map String.mk

/-- Embedding of str.lower restricted to its ASCII action: Char.toLower
maps the code points 65..90 to 97..122 and fixes everything else, which
agrees with the Python method on the ASCII range. -/
def pyLower (s : String) : String := String.mk (s.data.map Char.toLower)

/-- Lexicographic comparison of code-point sequences; this is how Python
compares strings. -/
def strLe : List Char → List Char → Bool
  | [], _ => true
  | _ :: _, [] => false
  | a :: as, b :: bs =>
    if a.toNat < b.toNat then true
    else if b.toNat < a.toNat then false
    else strLe as bs

/-- Python string comparison s ≤ t. -/
def pyStrLe (a b : String) : Bool := strLe a.data b.data

/-- Lookup in an association list with default 0; models reading from
the defaultdict used for the word counts. -/
def lookup0 : List (String × Nat) → String → Nat
  | [], _ => 0
  | p :: rest, w => if p.1 = w then p.2 else lookup0 rest w

/-- Adding n to the count stored under key w, creating the key at the
end when absent; models the statement words[w] += n on a defaultdict,
which keeps insertion order. -/
def incr : List (String × Nat) → String → Nat → List (String × Nat)
  | [], w, n => [(w, n)]
  | p :: rest, w, n =>
    if p.1 = w then (p.1, p.2 + n) :: rest else p :: incr rest w n

/-- Embedding of the Histogram class: the _words dict as an
insertion-ordered association list, and the _total counter. -/
structure Histogram where
  words : List (String × Nat)
  total : Nat
deriving DecidableEq

/-- Embedding of Histogram.__init__. -/
def Histogram.init : Histogram := ⟨[], 0⟩

/-- Count stored for a word (0 when absent). -/
def Histogram.count (h : Histogram) (w : String) : Nat := lookup0 h.words w

/-- Embedding of Histogram.add: lowercase the word, bump the total,
bump the per-word count. -/
def Histogram.add (h : Histogram) (word : String) : Histogram :=
  ⟨incr h.words (pyLower word) 1, h.total + 1⟩

/-- Embedding of the Histogram part of Histogram.__iadd__ (the
isinstance guard is modelled separately below): fold every count of the
other histogram into this one and add the totals. -/
def Histogram.iadd (self other : Histogram) : Histogram :=
  ⟨other.words.foldl (fun ws p => incr ws p.1 p.2) self.words, self.total + other.total⟩

/-- Embedding of the Histogram part of Histogram.__add__: allocate a
fresh Histogram and fold both operands into it, in order. -/
def Histogram.hadd (self other : Histogram) : Histogram :=
  (Histogram.init.iadd self).iadd other

/-- Embedding of the total_words property. -/
def Histogram.total_words (h : Histogram) : Nat := h.total

/-- Embedding of the distinct_words property (len of the dict). -/
def Histogram.distinct_words (h : Histogram) : Nat := h.words.length

/-- Order used by top_words: x comes no later than y exactly when the
Python sort key (count, word) of y is lexicographically at most the key
of x, which is what sorted(..., key=lambda x: (x[1], x[0]),
reverse=True) arranges. -/
def keyGE (x y : String × Nat) : Prop :=
  y.2 < x.2 ∨ (y.2 = x.2 ∧ pyStrLe y.1 x.1 = true)

instance : DecidableRel keyGE :=
  fun x y => inferInstanceAs (Decidable (y.2 < x.2 ∨ (y.2 = x.2 ∧ pyStrLe y.1 x.1 = true)))

/-- Sorting of the dict items performed by top_words. -/
def pySortDesc (l : List (String × Nat)) : List (String × Nat) :=
  List.insertionSort keyGE l

/-- Python list indexing, including the negative-index rule and the
IndexError on out-of-range access. -/
def pyGet (l : List (String × Nat)) (i : Int) : Except String (String × Nat) :=
  let j : Int := if i < 0 then i + l.length else i
  if h : 0 ≤ j ∧ j.toNat < l.length then Except.ok (l.get ⟨j.toNat, h.2⟩)
  else Except.error "list index out of range"

/-- Embedding of the while loop of top_words: starting at index count,
advance past every consecutive entry whose stored count equals
last_count, and return the final index. -/
def extendTies (wl : List (String × Nat)) (last_count count : Nat) : Nat :=
  count + ((wl.drop count).takeWhile (fun p => p.2 == last_count)).length

/-- Embedding of Histogram.top_words.  The sorted item list is returned
whole when it is shorter than count; otherwise the boundary count is
read at Python index count - 1 (an IndexError propagates) and the
result is the prefix extended across the tie at the boundary. -/
def Histogram.top_words (h : Histogram) (count : Nat) : Except String (List (String × Nat)) :=
  let word_list := pySortDesc h.words
  if word_list.length < count then Except.ok word_list
  else
    match pyGet word_list ((count : Int) - 1) with
    | Except.error e => Except.error e
    | Except.ok p => Except.ok (word_list.take (extendTies word_list p.2 count))

/-- Equality of histograms in the sense of the specification: identical
running total and identical count for every word. -/
def Histogram.eqv (a b : Histogram) : Prop :=
  a.total = b.total ∧ ∀ w, a.count w = b.count w

/-- Sum of the stored counts of an association list. -/
def sumVals : List (String × Nat) → Nat
  | [] => 0
  | p :: rest => p.2 + sumVals rest

/-- Total weight that an association list assigns to one word,
duplicate keys included. -/
def sumCounts : List (String × Nat) → String → Nat
  | [], _ => 0
  | p :: rest, w => (if p.1 = w then p.2 else 0) + sumCounts rest w

/-- Lowercase strings: the ASCII case transform fixes every character. -/
def isLowerStr (s : String) : Prop := s.data.map Char.toLower = s.data

instance (s : String) : Decidable (isLowerStr s) :=
  inferInstanceAs (Decidable (s.data.map Char.toLower = s.data))

/-- State invariant of a Histogram claimed by the specification: the
running total equals the sum of the stored counts, and every stored key
is lowercase. -/
def Histogram.Inv (h : Histogram) : Prop :=
  h.total = sumVals h.words ∧ ∀ p ∈ h.words, isLowerStr p.1

instance (h : Histogram) : Decidable h.Inv :=
  inferInstanceAs (Decidable (h.total = sumVals h.words ∧ ∀ p ∈ h.words, isLowerStr p.1))

/-- Small universe of Python values used to model the dynamic
isinstance checks in the merge operators. -/
inductive PyObj where
  | histObj : Histogram → PyObj
  | strObj : String → PyObj
  | intObj : Int → PyObj
deriving DecidableEq

/-- Embedding of isinstance(v, Histogram). -/
def isinstance_Histogram : PyObj → Bool
  | PyObj.histObj _ => true
  | _ => false

/-- Outcome of the __add__ and __iadd__ operators: either the Python
singleton NotImplemented or a Histogram. -/
inductive AddResult where
  | notImplemented : AddResult
  | value : Histogram → AddResult
deriving DecidableEq

/-- Embedding of Histogram.__iadd__ with its isinstance guard. -/
def Histogram.iadd_op (self : Histogram) (other : PyObj) : AddResult :=
  match other with
  | PyObj.histObj o => AddResult.value (self.iadd o)
  | _ => AddResult.notImplemented

/-- Embedding of Histogram.__add__ with its isinstance guard. -/
def Histogram.add_op (self : Histogram) (other : PyObj) : AddResult :=
  match other with
  | PyObj.histObj o => AddResult.value (self.hadd o)
  | _ => AddResult.notImplemented

/-- Embedding of histogram_from_file.  The environment maps a source
(a file name, or none for standard input) to its list of lines; the
function streams the lines through the tokenizer and feeds every word
to a fresh Histogram. -/
def histogram_from_file (env : Option String → List String) (fname : Option String) : Histogram :=
  (env fname).foldl (fun h line => (tokenize_text line).foldl Histogram.add h) Histogram.init

/-- Default worker count used when the CPU count is unavailable. -/
def DEFAULT_WORKERS : Nat := 4

/-- Embedding of multiprocessing.Pool.map: the results come back in
input order, one per input, independent of the worker count. -/
def pool_map (nworkers : Nat) (f : Option String → Histogram) (files : List (Option String)) :
    List Histogram :=
  files.map f

/-- Embedding of sum(results, Histogram()): a left fold of __add__
starting from a fresh Histogram. -/
def pySum (l : List Histogram) : Histogram := l.foldl Histogram.hadd Histogram.init

/-- Observable effects of main that the specification orders relative
to argument validation: opening an input source, and creating the
worker pool. -/
inductive Event where
  | openSource : Option String → Event
  | createPool : Nat → Event
deriving DecidableEq

/-- Value passed for the workers argument.  Python is dynamically
typed, so besides None and an integer the caller can pass a value of
any other type; otherWorkers stands for those. -/
inductive WorkerArg where
  | noWorkers : WorkerArg
  | intWorkers : Int → WorkerArg
  | otherWorkers : WorkerArg
deriving DecidableEq

/-- Embedding of the aggregation core of main, with its event trace.
The duplicate check on the marker - comes first; then the worker
directive is validated; only then is a pool created (worker branch) and
every input source opened, and the per-source histograms are summed.
Errors raised by the validation code are returned together with the
(empty) trace of events that happened before the raise. -/
def main_agg (env : Option String → List String) (cpu_count : Option Nat)
    (files : List String) (workers : WorkerArg) : List Event × Except String Histogram :=
  if 1 < (files.filter (fun f => f == "-")).length then
    ([], Except.error "The special file - may only be specified once.")
  else
    let files2 := files.map (fun f => if f == "-" then none else some f)
    match workers with
    | WorkerArg.noWorkers =>
      (files2.map Event.openSource,
        Except.ok (pySum (files2.map (histogram_from_file env))))
    | WorkerArg.otherWorkers =>
      ([], Except.error "Non-integer value for workers")
    | WorkerArg.intWorkers w =>
      if w < 0 then ([], Except.error "Number of workers must be >= 0")
      else
        let w2 : Nat :=
          if w = 0 then (match cpu_count with | some n => n | none => DEFAULT_WORKERS)
          else w.toNat
        (Event.createPool w2 :: files2.map Event.openSource,
          Except.ok (pySum (pool_map w2 (histogram_from_file env) files2)))

/-- Decomposition of a character list into maximal word runs.  The
statement WordRuns s ts says: s splits as sep, t1, rest where sep holds
no word character, t1 is a nonempty run of word characters, the
character following t1 (when any) is not a word character, and the rest
decomposes into the remaining runs.  This captures that every token is
a nonempty alphanumeric run, that tokens are maximal in both
directions, and that non-alphanumeric characters are never emitted. -/
inductive WordRuns : List Char → List (List Char) → Prop where
  | nil : ∀ sep, (∀ c ∈ sep, isWordChar c = false) → WordRuns sep []
  | cons : ∀ sep t rest ts, (∀ c ∈ sep, isWordChar c = false) →
      t ≠ [] → (∀ c ∈ t, isWordChar c = true) →
      (∀ c cs, rest = c :: cs → isWordChar c = false) →
      WordRuns rest ts → WordRuns (sep ++ (t ++ rest)) (t :: ts)

/-- Ordering asserted by the specification text for top_words: count
descending, ties by word ascending. -/
def ascTieOrder (l : List (String × Nat)) : Prop :=
  l.Pairwise (fun a b => b.2 < a.2 ∨ (a.2 = b.2 ∧ pyStrLe a.1 b.1 = true))

instance (l : List (String × Nat)) : Decidable (ascTieOrder l) :=
  inferInstanceAs
    (Decidable (l.Pairwise (fun a b : String × Nat => b.2 < a.2 ∨ (a.2 = b.2 ∧ pyStrLe a.1 b.1 = true))))

/-- Ordering actually produced by top_words: count descending, ties by
word descending. -/
def descTieOrder (l : List (String × Nat)) : Prop :=
  l.Pairwise (fun a b => b.2 < a.2 ∨ (a.2 = b.2 ∧ pyStrLe b.1 a.1 = true))

instance (l : List (String × Nat)) : Decidable (descTieOrder l) :=
  inferInstanceAs
    (Decidable (l.Pairwise (fun a b : String × Nat => b.2 < a.2 ∨ (a.2 = b.2 ∧ pyStrLe b.1 a.1 = true))))

/-! ### Helper lemmas about the association-list operations -/

theorem lookup0_incr (ws : List (String × Nat)) (w w2 : String) (n : Nat) :
    lookup0 (incr ws w n) w2 = lookup0 ws w2 + (if w = w2 then n else 0) := by
  induction ws with
  | nil =>
    by_cases h : w = w2 <;> simp [incr, lookup0, h]
  | cons p rest ih =>
    by_cases hp : p.1 = w
    · by_cases h2 : p.1 = w2 <;> simp [incr, lookup0, hp, h2, hp ▸ h2] <;> omega
    · by_cases h2 : p.1 = w2
      · have hb : ¬ w = w2 := fun e => hp (e ▸ h2)
        have hc : ¬ w2 = w := fun e => hb e.symm
        simp [incr, lookup0, hp, h2, hb, hc]
      · simp [incr, lookup0, hp, h2, ih]

theorem sumCounts_incr (ws : List (String × Nat)) (w w2 : String) (n : Nat) :
    sumCounts (incr ws w n) w2 = sumCounts ws w2 + (if w = w2 then n else 0) := by
  induction ws with
  | nil =>
    by_cases h : w = w2 <;> simp [incr, sumCounts, h]
  | cons p rest ih =>
    by_cases hp : p.1 = w
    · by_cases h2 : p.1 = w2 <;> simp [incr, sumCounts, hp, h2, hp ▸ h2] <;> omega
    · by_cases h2 : p.1 = w2
      · have hb : ¬ w = w2 := fun e => hp (e ▸ h2)
        have hc : ¬ w2 = w := fun e => hb e.symm
        simp [incr, sumCounts, hp, h2, hb, hc, ih]
      · simp [incr, sumCounts, hp, h2, ih]

theorem sumVals_incr (ws : List (String × Nat)) (w : String) (n : Nat) :
    sumVals (incr ws w n) = sumVals ws + n := by
  induction ws with
  | nil => simp [incr, sumVals]
  | cons p rest ih =>
    by_cases hp : p.1 = w <;> simp [incr, sumVals, hp, ih] <;> omega

theorem mem_incr (ws : List (String × Nat)) (w : String) (n : Nat) :
    ∀ q ∈ incr ws w n, q.1 = w ∨ q ∈ ws := by
  induction ws with
  | nil => simp [incr]
  | cons p rest ih =>
    intro q hq
    by_cases hp : p.1 = w
    · simp only [incr, if_pos hp] at hq
      rcases List.mem_cons.mp hq with hq | hq
      · exact Or.inl (by rw [hq]; exact hp)
      · exact Or.inr (List.mem_cons_of_mem p hq)
    · simp only [incr, if_neg hp] at hq
      rcases List.mem_cons.mp hq with hq | hq
      · exact Or.inr (hq ▸ List.mem_cons_self p rest)
      · rcases ih q hq with h | h
        · exact Or.inl h
        · exact Or.inr (List.mem_cons_of_mem p h)

theorem lookup0_foldl_incr (l : List (String × Nat)) :
    ∀ (ws : List (String × Nat)) (w : String),
      lookup0 (l.foldl (fun ws p => incr ws p.1 p.2) ws) w = lookup0 ws w + sumCounts l w := by
  induction l with
  | nil => intro ws w; simp [sumCounts]
  | cons p rest ih =>
    intro ws w
    simp only [List.foldl_cons, ih, lookup0_incr, sumCounts]
    by_cases h : p.1 = w <;> simp [h] <;> omega

theorem sumCounts_foldl_incr (l : List (String × Nat)) :
    ∀ (ws : List (String × Nat)) (w : String),
      sumCounts (l.foldl (fun ws p => incr ws p.1 p.2) ws) w = sumCounts ws w + sumCounts l w := by
  induction l with
  | nil => intro ws w; simp [sumCounts]
  | cons p rest ih =>
    intro ws w
    simp only [List.foldl_cons, ih, sumCounts_incr, sumCounts]
    by_cases h : p.1 = w <;> simp [h] <;> omega

theorem sumVals_foldl_incr (l : List (String × Nat)) :
    ∀ ws : List (String × Nat),
      sumVals (l.foldl (fun ws p => incr ws p.1 p.2) ws) = sumVals ws + sumVals l := by
  induction l with
  | nil => intro ws; simp [sumVals]
  | cons p rest ih =>
    intro ws
    simp only [List.foldl_cons, ih, sumVals_incr, sumVals]
    omega

theorem mem_foldl_incr (l : List (String × Nat)) :
    ∀ (ws : List (String × Nat)) (q : String × Nat),
      q ∈ l.foldl (fun ws p => incr ws p.1 p.2) ws → (∃ p ∈ l, q.1 = p.1) ∨ q ∈ ws := by
  induction l with
  | nil => intro ws q hq; exact Or.inr hq
  | cons p rest ih =>
    intro ws q hq
    simp only [List.foldl_cons] at hq
    rcases ih _ q hq with ⟨r, hr, he⟩ | hq2
    · exact Or.inl ⟨r, List.mem_cons_of_mem p hr, he⟩
    · rcases mem_incr ws p.1 p.2 q hq2 with h | h
      · exact Or.inl ⟨p, List.mem_cons_self p rest, h⟩
      · exact Or.inr h

/-! ### Derived facts about the Histogram merge operations -/

theorem count_iadd (a b : Histogram) (w : String) :
    (a.iadd b).count w = a.count w + sumCounts b.words w := by
  simp [Histogram.iadd, Histogram.count, lookup0_foldl_incr]

theorem count_hadd (a b : Histogram) (w : String) :
    (a.hadd b).count w = sumCounts a.words w + sumCounts b.words w := by
  simp [Histogram.hadd, Histogram.iadd, Histogram.init, Histogram.count,
    lookup0_foldl_incr, lookup0]

theorem total_hadd (a b : Histogram) : (a.hadd b).total = a.total + b.total := by
  simp [Histogram.hadd, Histogram.iadd, Histogram.init]

theorem sumCounts_hadd (a b : Histogram) (w : String) :
    sumCounts (a.hadd b).words w = sumCounts a.words w + sumCounts b.words w := by
  simp [Histogram.hadd, Histogram.iadd, Histogram.init, sumCounts_foldl_incr, sumCounts]

/-! ### Helper lemmas about the ASCII case transform -/

theorem toNat_ofNat_valid (n : Nat) (h : n.isValidChar) : (Char.ofNat n).toNat = n := by
  unfold Char.ofNat
  rw [dif_pos h]
  simp [Char.ofNatAux, Char.toNat, UInt32.toNat, UInt32.ofNatCore]

theorem toLower_idem (c : Char) : Char.toLower (Char.toLower c) = Char.toLower c := by
  unfold Char.toLower
  by_cases h : c.toNat ≥ 65 ∧ c.toNat ≤ 90
  · rw [if_pos h]
    have hv : (c.toNat + 32).isValidChar := by
      unfold Nat.isValidChar
      left
      omega
    have ht : (Char.ofNat (c.toNat + 32)).toNat = c.toNat + 32 := toNat_ofNat_valid _ hv
    rw [if_neg]
    rw [ht]
    omega
  · rw [if_neg h, if_neg h]

theorem isLowerStr_pyLower (w : String) : isLowerStr (pyLower w) := by
  show (String.mk (w.data.map Char.toLower)).data.map Char.toLower
      = (String.mk (w.data.map Char.toLower)).data
  simp only [List.map_map]
  exact List.map_congr_left (fun c _ => toLower_idem c)

/-! ### The sort order of top_words is total and transitive -/

theorem strLe_total : ∀ as bs : List Char, strLe as bs = true ∨ strLe bs as = true := by
  intro as
  induction as with
  | nil => intro bs; left; rfl
  | cons a as ih =>
    intro bs
    cases bs with
    | nil => right; rfl
    | cons b bs =>
      rcases Nat.lt_trichotomy a.toNat b.toNat with h | h | h
      · left; simp [strLe, h]
      · have h1 : ¬ a.toNat < b.toNat := by omega
        have h2 : ¬ b.toNat < a.toNat := by omega
        rcases ih bs with hl | hr
        · left; simp [strLe, h1, h2, hl]
        · right; simp [strLe, h1, h2, hr]
      · right; simp [strLe, h]

theorem strLe_trans : ∀ as bs cs : List Char,
    strLe as bs = true → strLe bs cs = true → strLe as cs = true := by
  intro as
  induction as with
  | nil => intro bs cs _ _; rfl
  | cons a as ih =>
    intro bs cs h1 h2
    cases bs with
    | nil => simp [strLe] at h1
    | cons b bs =>
      cases cs with
      | nil => simp [strLe] at h2
      | cons c cs =>
        by_cases hab : a.toNat < b.toNat
        · by_cases hbc : b.toNat < c.toNat
          · have : a.toNat < c.toNat := by omega
            simp [strLe, this]
          · by_cases hcb : c.toNat < b.toNat
            · simp [strLe, hbc, hcb] at h2
            · have : a.toNat < c.toNat := by omega
              simp [strLe, this]
        · by_cases hba : b.toNat < a.toNat
          · simp [strLe, hab, hba] at h1
          · simp only [strLe, if_neg hab, if_neg hba] at h1
            by_cases hbc : b.toNat < c.toNat
            · have : a.toNat < c.toNat := by omega
              simp [strLe, this]
            · by_cases hcb : c.toNat < b.toNat
              · simp [strLe, hbc, hcb] at h2
              · simp only [strLe, if_neg hbc, if_neg hcb] at h2
                have h3 : ¬ a.toNat < c.toNat := by omega
                have h4 : ¬ c.toNat < a.toNat := by omega
                simp only [strLe, if_neg h3, if_neg h4]
                exact ih bs cs h1 h2

instance : IsTotal (String × Nat) keyGE := by
  constructor
  intro x y
  rcases Nat.lt_trichotomy y.2 x.2 with h | h | h
  · exact Or.inl (Or.inl h)
  · rcases strLe_total y.1.data x.1.data with hs | hs
    · exact Or.inl (Or.inr ⟨h, hs⟩)
    · exact Or.inr (Or.inr ⟨h.symm, hs⟩)
  · exact Or.inr (Or.inl h)

instance : IsTrans (String × Nat) keyGE := by
  constructor
  intro x y z hxy hyz
  rcases hxy with h1 | ⟨h1, hs1⟩
  · rcases hyz with h2 | ⟨h2, hs2⟩
    · exact Or.inl (by omega)
    · exact Or.inl (by omega)
  · rcases hyz with h2 | ⟨h2, hs2⟩
    · exact Or.inl (by omega)
    · exact Or.inr ⟨by omega, strLe_trans _ _ _ hs2 hs1⟩

theorem pairwise_pySortDesc (l : List (String × Nat)) : (pySortDesc l).Pairwise keyGE :=
  List.sorted_insertionSort keyGE l

theorem descTieOrder_of_pairwise (l : List (String × Nat)) (h : l.Pairwise keyGE) :
    descTieOrder l := by
  unfold descTieOrder
  refine h.imp ?_
  intro a b hab
  rcases hab with h | ⟨he, hs⟩
  · exact Or.inl h
  · exact Or.inr ⟨he.symm, hs⟩

theorem top_words_sublist (h : Histogram) (n : Nat) (l : List (String × Nat))
    (he : h.top_words n = Except.ok l) : l.Sublist (pySortDesc h.words) := by
  unfold Histogram.top_words at he
  by_cases hlen : (pySortDesc h.words).length < n
  · rw [if_pos hlen] at he
    injection he with he2
    rw [← he2]
  · rw [if_neg hlen] at he
    cases hg : pyGet (pySortDesc h.words) ((n : Int) - 1) with
    | error e => rw [hg] at he; cases he
    | ok p =>
      rw [hg] at he
      injection he with he2
      rw [← he2]
      exact List.take_sublist _ _

/-! ### The tokenizer yields exactly the maximal word runs -/

theorem wordRuns_cons_nonword (c : Char) (hc : isWordChar c = false) :
    ∀ {l : List Char} {ts : List (List Char)}, WordRuns l ts → WordRuns (c :: l) ts
  | _, _, WordRuns.nil sep hsep =>
    WordRuns.nil (c :: sep) (fun d hd => by
      rcases List.mem_cons.mp hd with hd | hd
      · rw [hd]; exact hc
      · exact hsep d hd)
  | _, _, WordRuns.cons sep t rest ts2 hsep ht hw hnext hrest =>
    WordRuns.cons (c :: sep) t rest ts2 (fun d hd => by
      rcases List.mem_cons.mp hd with hd | hd
      · rw [hd]; exact hc
      · exact hsep d hd) ht hw hnext hrest

theorem wordRuns_tokenizeAux : ∀ (fuel : Nat) (l : List Char), l.length ≤ fuel →
    WordRuns l (tokenizeAux fuel l) := by
  intro fuel
  induction fuel with
  | zero =>
    intro l hl
    have hnil : l = [] := List.eq_nil_of_length_eq_zero (Nat.le_zero.mp hl)
    subst hnil
    exact WordRuns.nil [] (by simp)
  | succ fuel ih =>
    intro l hl
    cases l with
    | nil => exact WordRuns.nil [] (by simp)
    | cons c rest =>
      have hrl : rest.length ≤ fuel := by
        simp only [List.length_cons] at hl
        omega
      by_cases hc : isWordChar c
      · have hstep : tokenizeAux (fuel + 1) (c :: rest)
            = (c :: rest.takeWhile isWordChar) :: tokenizeAux fuel (rest.dropWhile isWordChar) := by
          simp [tokenizeAux, hc]
        rw [hstep]
        have hdlen : (rest.dropWhile isWordChar).length ≤ fuel :=
          le_trans (List.dropWhile_sublist isWordChar).length_le hrl
        have hrec := ih _ hdlen
        have hsplit : c :: rest
            = [] ++ ((c :: rest.takeWhile isWordChar) ++ rest.dropWhile isWordChar) := by
          simp [List.takeWhile_append_dropWhile]
        rw [hsplit]
        refine WordRuns.cons [] _ _ _ (by simp) (by simp) ?_ ?_ hrec
        · intro d hd
          rcases List.mem_cons.mp hd with hd | hd
          · rw [hd]; exact hc
          · exact List.mem_takeWhile_imp hd
        · intro d ds hds
          have := List.head?_dropWhile_not isWordChar rest
          rw [hds] at this
          simpa using this
      · have hstep : tokenizeAux (fuel + 1) (c :: rest) = tokenizeAux fuel rest := by
          simp [tokenizeAux, hc]
        rw [hstep]
        exact wordRuns_cons_nonword c (by simpa using hc) (ih rest hrl)

theorem wordRuns_tokens {l : List Char} {ts : List (List Char)} (h : WordRuns l ts) :
    ∀ t ∈ ts, t ≠ [] ∧ ∀ c ∈ t, isWordChar c = true := by
  induction h with
  | nil => simp
  | cons sep t rest ts2 hsep ht hw hnext hrest ihr =>
    intro t2 ht2
    rcases List.mem_cons.mp ht2 with ht2 | ht2
    · exact ht2 ▸ ⟨ht, hw⟩
    · exact ihr t2 ht2

/-! ### Invariant preservation lemmas -/

theorem inv_init : Histogram.init.Inv := ⟨rfl, by simp [Histogram.init]⟩

theorem inv_add (h : Histogram) (w : String) (hinv : h.Inv) : (h.add w).Inv := by
  refine ⟨?_, ?_⟩
  · show h.total + 1 = sumVals (incr h.words (pyLower w) 1)
    rw [sumVals_incr, ← hinv.1]
  · intro p hp
    rcases mem_incr h.words (pyLower w) 1 p hp with he | he
    · rw [he]; exact isLowerStr_pyLower w
    · exact hinv.2 p he

theorem inv_iadd (a b : Histogram) (ha : a.Inv) (hb : b.Inv) : (a.iadd b).Inv := by
  refine ⟨?_, ?_⟩
  · show a.total + b.total = sumVals (b.words.foldl (fun ws p => incr ws p.1 p.2) a.words)
    rw [sumVals_foldl_incr, ← ha.1, ← hb.1]
  · intro p hp
    rcases mem_foldl_incr b.words a.words p hp with ⟨q, hq, he⟩ | hmem
    · rw [he]; exact hb.2 q hq
    · exact ha.2 p hmem

/-! ### The claims -/

/-- Claim C1: for every list of input files and every valid worker
directive, the final merged Histogram produced by main (its total
count, distinct-word count, and per-word counts) is identical whether
the per-file Histograms are built by the serial branch or the
worker-pool branch, and regardless of the number of workers. -/
theorem main_parallel_eq_serial
    (env : Option String → List String) (cpu : Option Nat) (files : List String) (w : Int)
    (hw : 0 ≤ w) (h1 h2 : Histogram)
    (hp : (main_agg env cpu files (WorkerArg.intWorkers w)).2 = Except.ok h1)
    (hs : (main_agg env cpu files WorkerArg.noWorkers).2 = Except.ok h2) :
    h1.total_words = h2.total_words ∧ h1.distinct_words = h2.distinct_words ∧
      ∀ word, h1.count word = h2.count word := by
  by_cases hd : 1 < (files.filter (fun f => f == "-")).length
  · simp only [main_agg, if_pos hd] at hp
    cases hp
  · have hw2 : ¬ w < 0 := by omega
    simp only [main_agg, if_neg hd, if_neg hw2, pool_map] at hp hs
    injection hp with hp2
    injection hs with hs2
    rw [← hp2, ← hs2]
    exact ⟨rfl, rfl, fun word => rfl⟩

/-- Environment used by the concrete instance of claim C1: every
source consists of the single line of text spam spam. -/
def envW : Option String → List String := fun _ => ["spam spam"]

/-- Witness for claim C1 at a concrete input: one file, two workers. -/
theorem main_parallel_eq_serial_witness :
    (Histogram.mk [("spam", 2)] 2).total_words = (Histogram.mk [("spam", 2)] 2).total_words ∧
    (Histogram.mk [("spam", 2)] 2).distinct_words = (Histogram.mk [("spam", 2)] 2).distinct_words ∧
    ∀ word, (Histogram.mk [("spam", 2)] 2).count word = (Histogram.mk [("spam", 2)] 2).count word :=
  main_parallel_eq_serial envW none ["x"] 2 (by decide)
    (Histogram.mk [("spam", 2)] 2) (Histogram.mk [("spam", 2)] 2) (by rfl) (by rfl)

/-- Claim C2: the Histogram merge is commutative and associative, where
equality means identical total and identical per-word counts. -/
theorem merge_comm_assoc (A B C : Histogram) :
    (A.hadd B).eqv (B.hadd A) ∧ ((A.hadd B).hadd C).eqv (A.hadd (B.hadd C)) := by
  refine ⟨⟨?_, ?_⟩, ⟨?_, ?_⟩⟩
  · simp only [total_hadd]; omega
  · intro w; simp only [count_hadd]; omega
  · simp only [total_hadd]; omega
  · intro w; simp only [count_hadd, sumCounts_hadd]; omega

/-- Claim C3, counterexample: the specification asserts that ties are
returned in ascending word order, but on the histogram built by adding
the words a and b once each, top_words 2 returns the tied words in
descending order. -/
theorem top_words_asc_tie_counterexample :
    ((Histogram.init.add "a").add "b").top_words 2 = Except.ok [("b", 1), ("a", 1)] ∧
    ¬ ascTieOrder [("b", 1), ("a", 1)] := by
  refine ⟨by rfl, by decide⟩

/-- Claim C3 (amended): for every Histogram and every n, the list
returned by top_words n is sorted by count descending and, among
entries with equal counts, by word in descending lexicographic order. -/
theorem top_words_sorted_count_desc_word_desc (h : Histogram) (n : Nat)
    (l : List (String × Nat)) (he : h.top_words n = Except.ok l) : descTieOrder l :=
  descTieOrder_of_pairwise l
    (List.Pairwise.sublist (top_words_sublist h n l he) (pairwise_pySortDesc h.words))

/-- Witness for the amended claim C3 at a concrete input. -/
theorem top_words_sorted_count_desc_word_desc_witness :
    descTieOrder [("b", 1), ("a", 1)] :=
  top_words_sorted_count_desc_word_desc ((Histogram.init.add "a").add "b") 2
    [("b", 1), ("a", 1)] (by rfl)

/-- Claim C4: on the histogram with counts word1 50, word2 40, word3
40, word4 40, word5 10, top_words 3 returns exactly word1, word4,
word3, word2 with their counts: every entry tied with the count at the
boundary is included, entries with strictly smaller counts are not. -/
theorem top_words_tie_inclusion :
    (Histogram.mk [("word1", 50), ("word2", 40), ("word3", 40), ("word4", 40), ("word5", 10)]
        180).top_words 3
      = Except.ok [("word1", 50), ("word4", 40), ("word3", 40), ("word2", 40)] := by
  rfl

/-- Claim C5: the Histogram state invariant (the total equals the sum
of the stored per-word counts and every stored key is lowercase) holds
for the empty Histogram and is preserved by add and by both merge
operations. -/
theorem histogram_invariant :
    Histogram.init.Inv ∧
    (∀ (h : Histogram) (w : String), h.Inv → (h.add w).Inv) ∧
    (∀ a b : Histogram, a.Inv → b.Inv → (a.iadd b).Inv ∧ (a.hadd b).Inv) :=
  ⟨inv_init, inv_add,
    fun a b ha hb => ⟨inv_iadd a b ha hb, inv_iadd _ b (inv_iadd _ a inv_init ha) hb⟩⟩

/-- Witness for claim C5 at concrete inputs. -/
theorem histogram_invariant_witness :
    (Histogram.init.add "Spam").Inv ∧
    ((Histogram.init.add "Spam").iadd (Histogram.init.add "Eggs")).Inv :=
  ⟨histogram_invariant.2.1 Histogram.init "Spam" histogram_invariant.1,
    (histogram_invariant.2.2 (Histogram.init.add "Spam") (Histogram.init.add "Eggs")
      (by decide) (by decide)).1⟩

/-- Claim C6: for every input string, every token the tokenizer emits
is a nonempty run of ASCII letters and digits, each token is maximal
(the decomposition WordRuns places only non-word characters around
every token), and non-alphanumeric characters are never emitted. -/
theorem tokenize_maximal_runs (text : String) :
    WordRuns text.data ((tokenize_text text).map String.data) ∧
    ∀ t ∈ tokenize_text text, t.data ≠ [] ∧ ∀ c ∈ t.data, isWordChar c = true := by
  have hruns : WordRuns text.data (tokenizeChars text.data) :=
    wordRuns_tokenizeAux text.data.length text.data le_rfl
  have hmap : (tokenize_text text).map String.data = tokenizeChars text.data := by
    show List.map String.data (List.map String.mk (tokenizeChars text.data))
        = tokenizeChars text.data
    rw [List.map_map]
    exact List.map_id _
  constructor
  · rw [hmap]; exact hruns
  · intro t ht
    rcases List.mem_map.mp ht with ⟨lc, hlc, he⟩
    have hpt := wordRuns_tokens hruns lc hlc
    rw [← he]
    exact hpt

/-- Claim C7: add is case-insensitive; adding Spam, sPAM and SPAM to an
empty Histogram yields one distinct word, three total words, and a
single stored key spam with count 3. -/
theorem add_case_insensitive :
    (((Histogram.init.add "Spam").add "sPAM").add "SPAM").distinct_words = 1 ∧
    (((Histogram.init.add "Spam").add "sPAM").add "SPAM").total_words = 3 ∧
    (((Histogram.init.add "Spam").add "sPAM").add "SPAM").words = [("spam", 3)] := by
  refine ⟨by rfl, by rfl, by decide⟩

/-- Claim C8: when the standard-input marker appears more than once, or
the worker directive is negative or of a non-integer type, main returns
an error with an empty event trace: no input source has been opened and
no worker pool has been created. -/
theorem main_rejects_invalid_args
    (env : Option String → List String) (cpu : Option Nat) (files : List String)
    (workers : WorkerArg)
    (hbad : 1 < (files.filter (fun f => f == "-")).length ∨ workers = WorkerArg.otherWorkers ∨
      ∃ n : Int, workers = WorkerArg.intWorkers n ∧ n < 0) :
    ∃ msg, main_agg env cpu files workers = ([], Except.error msg) := by
  by_cases hd : 1 < (files.filter (fun f => f == "-")).length
  · exact ⟨"The special file - may only be specified once.", by simp only [main_agg, if_pos hd]⟩
  · rcases hbad with hbad | hbad | ⟨n, hn, hneg⟩
    · exact absurd hbad hd
    · subst hbad
      exact ⟨"Non-integer value for workers", by simp only [main_agg, if_neg hd]⟩
    · subst hn
      exact ⟨"Number of workers must be >= 0", by simp only [main_agg, if_neg hd, if_pos hneg]⟩

/-- Witness for claim C8 at a concrete input: the marker - twice. -/
theorem main_rejects_invalid_args_witness :
    ∃ msg, main_agg (fun _ => []) none ["-", "-"] WorkerArg.noWorkers
      = ([], Except.error msg) :=
  main_rejects_invalid_args (fun _ => []) none ["-", "-"] WorkerArg.noWorkers
    (Or.inl (by decide))

/-- Claim C9: merging a Histogram with a value that is not a Histogram
returns the NotImplemented result through both operators instead of
coercing the value; no histogram is produced by the failed merge. -/
theorem merge_non_histogram (h : Histogram) (v : PyObj)
    (hv : isinstance_Histogram v = false) :
    h.iadd_op v = AddResult.notImplemented ∧ h.add_op v = AddResult.notImplemented := by
  cases v with
  | histObj o => simp [isinstance_Histogram] at hv
  | strObj s => exact ⟨rfl, rfl⟩
  | intObj n => exact ⟨rfl, rfl⟩

/-- Witness for claim C9 at a concrete input: the integer 3. -/
theorem merge_non_histogram_witness :
    Histogram.init.iadd_op (PyObj.intObj 3) = AddResult.notImplemented ∧
    Histogram.init.add_op (PyObj.intObj 3) = AddResult.notImplemented :=
  merge_non_histogram Histogram.init (PyObj.intObj 3) (by decide)

/-- Claim C10: top_words 0 on an empty Histogram reaches the read of
word_list at Python index -1 (the guard does not fire because 0 < 0 is
false) and raises an uncaught IndexError instead of returning an empty
list. -/
theorem top_words_zero_on_empty_raises :
    Histogram.init.top_words 0 = Except.error "list index out of range" := by
  rfl
